import Mathlib

/-!
Verification of the helper functions and fixed demonstration circuits of the
qml-mooc notebooks (cirq version), as a shallow embedding in Lean 4.

The embedded code:
* `get_vector` (02_Measurements_and_Mixed_States.ipynb): Bloch-vector helper,
  with its phase snapping (`snap`), global-phase `denominator`, and the
  complex `acos`-based spherical-to-Cartesian conversion.
* `plot_histogram` (same notebook): bar-chart calls, modelled as a record of
  the arguments passed to `plt.bar` / `plt.xticks`.
* `get_psuccess` (14_Quantum_Matrix_Inversion.ipynb): success-probability
  helper with its KeyError / ZeroDivisionError fallbacks.
* `hhl` (same notebook): the fixed six-qubit HHL demonstration circuit, as a
  list of gate applications in append order.
* `qft` (12_Quantum_Phase_Estimation notebook): the three-qubit quantum
  Fourier transform circuit, with state-vector semantics over amplitudes
  indexed 0..7 (cirq big-endian convention: the first qubit is the most
  significant bit).

Machine reals/complexes are modelled as `ℝ`/`ℂ`; Python's `cmath` functions
are the corresponding principal-branch functions (`Complex.arg` for
`cmath.phase`, `Complex.log`, and `cacos` below for `cmath.acos`, which the
C standard defines as -i log(z + i sqrt(1 - z^2))).
-/

open scoped Classical

/-! ## `get_vector` (Bloch-vector helper) -/

/-- Python's `cmath.isclose a b` with the default tolerances
`rel_tol = 1e-09`, `abs_tol = 0.0`:
`abs (a - b) <= max (rel_tol * max (abs a) (abs b)) abs_tol`. -/
def isclose (a b : ℝ) : Prop :=
  |a - b| ≤ (1 / 1000000000) * max |a| |b|

/-- The snapping applied to `angle_alpha` and `angle_beta` in `get_vector`:
`if cmath.isclose(angle, cmath.pi): angle = 0`. -/
noncomputable def snap (ang : ℝ) : ℝ :=
  if isclose ang Real.pi then 0 else ang

/-- The denominator choice of `get_vector`, as a function of the two
(already snapped) angles:
`if (angle_beta < 0 and angle_alpha < angle_beta) or
    (angle_beta > 0 and angle_alpha > angle_beta):
   denominator = cmath.exp(1j*angle_beta)
 else:
   denominator = cmath.exp(1j*angle_alpha)`. -/
noncomputable def denominator_angles (aa ab : ℝ) : ℂ :=
  if (ab < 0 ∧ aa < ab) ∨ (0 < ab ∧ ab < aa) then
    Complex.exp (Complex.I * ab)
  else
    Complex.exp (Complex.I * aa)

/-- `denominator` of `get_vector`: the angles fed in are
`cmath.phase(alpha)` / `cmath.phase(beta)` after snapping. -/
noncomputable def denominator (alpha beta : ℂ) : ℂ :=
  denominator_angles (snap alpha.arg) (snap beta.arg)

/-- `alpha_new = alpha/denominator` in `get_vector`. -/
noncomputable def alpha_new (alpha beta : ℂ) : ℂ :=
  alpha / denominator alpha beta

/-- `beta_new = beta/denominator` in `get_vector`. -/
noncomputable def beta_new (alpha beta : ℂ) : ℂ :=
  beta / denominator alpha beta

/-- Principal-branch complex arccosine, as computed by `cmath.acos`:
`acos z = -i log(z + i (1 - z^2)^(1/2))` (C99 Annex G definition). -/
noncomputable def cacos (z : ℂ) : ℂ :=
  -Complex.I * Complex.log (z + Complex.I * (1 - z ^ 2) ^ ((1 : ℂ) / 2))

/-- `theta = 2*cmath.acos(alpha_new)` in `get_vector`. -/
noncomputable def theta (alpha beta : ℂ) : ℂ :=
  2 * cacos (alpha_new alpha beta)

/-- `phi = -1j*cmath.log(beta_new/cmath.sin(theta/2))` in `get_vector`. -/
noncomputable def phi (alpha beta : ℂ) : ℂ :=
  -Complex.I * Complex.log (beta_new alpha beta / Complex.sin (theta alpha beta / 2))

/-- The Bloch-vector helper `get_vector(alpha, beta)` of
02_Measurements_and_Mixed_States.ipynb.  Returns the triple
`(x.real, y.real, z.real)`; the two early-return pole branches are the
source's special case `if abs(alpha) == 0 or abs(beta) == 0`. -/
noncomputable def get_vector (alpha beta : ℂ) : ℝ × ℝ × ℝ :=
  if Complex.abs alpha = 0 ∨ Complex.abs beta = 0 then
    if alpha = 0 then (0, 0, -1) else (0, 0, 1)
  else
    ((Complex.sin (theta alpha beta) * Complex.cos (phi alpha beta)).re,
     (Complex.sin (theta alpha beta) * Complex.sin (phi alpha beta)).re,
     (Complex.cos (theta alpha beta)).re)

/-! ## `plot_histogram` -/

/-- The observable effect of `plot_histogram`: the argument lists passed to
`plt.bar(x, counts.values())` and `plt.xticks(x, counts.keys())`, where
`x = np.arange(len(counts))`. -/
structure BarChart where
  barPositions : List ℕ
  barHeights : List ℕ
  tickPositions : List ℕ
  tickLabels : List String
deriving DecidableEq

/-- `plot_histogram(counts)` of 02_Measurements_and_Mixed_States.ipynb.
`counts` is the mapping outcome label ↦ occurrence count, modelled as an
association list in the mapping's iteration order. -/
def plot_histogram (counts : List (String × ℕ)) : BarChart :=
  { barPositions := List.range counts.length
    barHeights := counts.map Prod.snd
    tickPositions := List.range counts.length
    tickLabels := counts.map Prod.fst }

/-! ## `get_psuccess` -/

/-- `get_psuccess(counts)` of 14_Quantum_Matrix_Inversion.ipynb.  The counts
mapping may lack a key (`Option`); the two `try/except KeyError` blocks
become `Option.getD 0`, and the `try/except ZeroDivisionError` block becomes
the test on `succ_rotation`.  The float result is modelled as `ℚ`. -/
def get_psuccess (counts : String → Option ℕ) : ℚ :=
  let succ_rotation_fail_swap : ℕ := (counts "11").getD 0
  let succ_rotation_succ_swap : ℕ := (counts "01").getD 0
  let succ_rotation : ℕ := succ_rotation_succ_swap + succ_rotation_fail_swap
  if succ_rotation = 0 then 0
  else (succ_rotation_succ_swap : ℚ) / (succ_rotation : ℚ)

/-! ## The fixed `hhl` circuit -/

/-- One appended operation of the `hhl` circuit.  Qubits are the indices of
`q = cirq.LineQubit.range(6)`; rotation angles are real parameters.
`u3g t p l q` is the generic `u3(t, p, l).on(q)` gate of the notebook and
`cu3g t p l c q` its controlled version `cu3(t, p, l).on(c, q)`. -/
inductive Gate where
  | hGate : ℕ → Gate
  | cnot : ℕ → ℕ → Gate
  | ccx : ℕ → ℕ → ℕ → Gate
  | swapGate : ℕ → ℕ → Gate
  | rz : ℝ → ℕ → Gate
  | ry : ℝ → ℕ → Gate
  | u3g : ℝ → ℝ → ℝ → ℕ → Gate
  | cu3g : ℝ → ℝ → ℝ → ℕ → ℕ → Gate
  | measureGate : List ℕ → String → Gate

/-- `u1(l) = u3(0, 0, l)` as defined in the notebook. -/
def u1 (l : ℝ) : ℕ → Gate := Gate.u3g 0 0 l

/-- `cu1(l) = cu3(0, 0, l)` as defined in the notebook. -/
def cu1 (l : ℝ) : ℕ → ℕ → Gate := Gate.cu3g 0 0 l

/-- `cu3(t, p, l)` applied as `.on(control, target)`. -/
def cu3 (t p l : ℝ) : ℕ → ℕ → Gate := Gate.cu3g t p l

/-- The qubit indices an operation acts on. -/
def gateQubits : Gate → List ℕ
  | .hGate q => [q]
  | .cnot c t => [c, t]
  | .ccx a b t => [a, b, t]
  | .swapGate a b => [a, b]
  | .rz _ q => [q]
  | .ry _ q => [q]
  | .u3g _ _ _ q => [q]
  | .cu3g _ _ _ c t => [c, t]
  | .measureGate qs _ => qs

/-- Whether an operation is a measurement. -/
def gateIsMeasure : Gate → Bool
  | .measureGate _ _ => true
  | _ => false

/-- The full `hhl` circuit of 14_Quantum_Matrix_Inversion.ipynb: every
`hhl.append(...)` of the notebook, in order (`cirq.H.on_each` appends one H
per listed qubit). -/
noncomputable def hhl : List Gate :=
  [ -- Superposition
    .hGate 1, .hGate 2,
    -- Controlled-U0
    cu3 (-Real.pi / 2) (-Real.pi / 2) (Real.pi / 2) 2 3,
    cu1 (3 * Real.pi / 4) 2 3,
    .cnot 2 3,
    cu1 (3 * Real.pi / 4) 2 3,
    .cnot 2 3,
    -- Controlled-U1
    .cnot 1 3,
    -- Inverse quantum Fourier transform
    .swapGate 1 2,
    .hGate 2,
    cu1 (-Real.pi / 2) 1 2,
    .hGate 1,
    -- Eigenvalue inversion
    .swapGate 1 2,
    -- Conditional rotation of ancilla
    cu3 0.392699 0 0 1 0,
    cu3 0.19634955 0 0 2 0,
    -- Uncomputing the eigenvalue register
    .swapGate 1 2,
    .hGate 1,
    cu1 (Real.pi / 2) 1 2,
    .hGate 2,
    .swapGate 2 1,
    .cnot 1 3,
    .cnot 2 3,
    cu1 (-3 * Real.pi / 4) 2 3,
    .cnot 2 3,
    cu1 (-3 * Real.pi / 4) 2 3,
    cu3 (-Real.pi / 2) (Real.pi / 2) (-Real.pi / 2) 2 3,
    .hGate 1, .hGate 2,
    -- Target state preparation
    .rz (-Real.pi) 4,
    u1 Real.pi 4,
    .hGate 4,
    .ry (-0.9311623288419387) 4,
    .rz Real.pi 4,
    -- Swap test
    .hGate 5,
    .cnot 4 3,
    .ccx 5 3 4,
    .cnot 4 3,
    .hGate 5,
    .measureGate [0, 5] "result" ]

/-! ## The three-qubit `qft` circuit -/

/-- Action of a Hadamard gate on the qubit of binary weight `w`
(`w ∈ {4, 2, 1}`: cirq big-endian index `k = 4·k₀ + 2·k₁ + k₂` for qubits
`q0, q1, q2`), on a state vector given by its amplitudes. -/
noncomputable def applyH (w : ℕ) (s : ℕ → ℂ) : ℕ → ℂ := fun k =>
  if k / w % 2 = 1 then (s (k - w) - s k) / Real.sqrt 2
  else (s k + s (k + w)) / Real.sqrt 2

/-- Action of `cirq.CZ(a, b)**t` on the qubits of binary weights `w1, w2`:
the amplitude of a basis state with both qubits 1 is multiplied by
`exp(i π t)`. -/
noncomputable def applyCZpow (w1 w2 : ℕ) (t : ℝ) (s : ℕ → ℂ) : ℕ → ℂ := fun k =>
  if k / w1 % 2 = 1 ∧ k / w2 % 2 = 1 then
    Complex.exp (Real.pi * t * Complex.I) * s k
  else s k

/-- The `qft` circuit of the quantum-phase-estimation notebook:
`Circuit(H(q0), CZ(q1,q0)**0.5, H(q1), CZ(q2,q0)**0.25, CZ(q2,q1)**0.5,
H(q2))`, acting on amplitudes indexed by `k = 4·k₀ + 2·k₁ + k₂` (q0 most
significant, cirq's convention). -/
noncomputable def qft (x : ℕ → ℂ) : ℕ → ℂ :=
  applyH 1 (applyCZpow 1 2 0.5 (applyCZpow 1 4 0.25 (applyH 2 (applyCZpow 2 4 0.5 (applyH 4 x)))))

/-- Reversal of the three bits of an index below 8. -/
def rev3 (k : ℕ) : ℕ := 4 * (k % 2) + 2 * (k / 2 % 2) + k / 4 % 2

/-- The primitive eighth root of unity `exp(i π / 4)`, used to state the
discrete-Fourier-transform coefficients. -/
noncomputable def zeta8 : ℂ := Complex.exp (Real.pi * Complex.I / 4)

/-! ## Theorems -/

/-- C3: for every counts mapping, `get_psuccess` treats a missing `'11'` key
and a missing `'01'` key as the count 0 (the KeyError is caught and replaced
by zero), so its result equals `counts['01'] / (counts['01'] + counts['11'])`
with each absent key read as 0 (and with the convention, matching the
ZeroDivisionError fallback, that the quotient is 0 when the denominator
is 0). -/
theorem get_psuccess_eq_ratio (counts : String → Option ℕ) :
    get_psuccess counts =
      ((counts "01").getD 0 : ℚ) /
        (((counts "01").getD 0 : ℚ) + ((counts "11").getD 0 : ℚ)) := by
  unfold get_psuccess
  by_cases h : (counts "01").getD 0 + (counts "11").getD 0 = 0
  · rcases Nat.add_eq_zero.mp h with ⟨h1, h2⟩
    simp [h1, h2]
  · rw [if_neg h]
    push_cast
    ring

/-- C10: for every counts mapping (counts are naturals, hence non-negative),
`get_psuccess` returns a value in [0, 1], and returns 0 instead of raising
ZeroDivisionError when `counts['01'] + counts['11'] = 0` (in particular when
neither key is present). -/
theorem get_psuccess_mem_unit (counts : String → Option ℕ) :
    0 ≤ get_psuccess counts ∧ get_psuccess counts ≤ 1 ∧
      ((counts "01").getD 0 + (counts "11").getD 0 = 0 → get_psuccess counts = 0) := by
  by_cases h : (counts "01").getD 0 + (counts "11").getD 0 = 0
  · refine ⟨?_, ?_, fun _ => ?_⟩ <;> simp [get_psuccess, h]
  · refine ⟨?_, ?_, fun hc => absurd hc h⟩
    · unfold get_psuccess
      rw [if_neg h]
      positivity
    · unfold get_psuccess
      rw [if_neg h]
      have hpos : (0 : ℚ) < (((counts "01").getD 0 + (counts "11").getD 0 : ℕ) : ℚ) := by
        exact_mod_cast Nat.pos_of_ne_zero h
      rw [div_le_one hpos]
      exact_mod_cast Nat.le_add_right _ _

/-- Witness for C10 at the empty mapping: every lookup misses, the
denominator is 0, and the result is 0 (which lies in [0, 1]). -/
theorem get_psuccess_mem_unit_witness :
    0 ≤ get_psuccess (fun _ => none) ∧ get_psuccess (fun _ => none) ≤ 1 ∧
      get_psuccess (fun _ => none) = 0 :=
  ⟨(get_psuccess_mem_unit (fun _ => none)).1,
   (get_psuccess_mem_unit (fun _ => none)).2.1,
   (get_psuccess_mem_unit (fun _ => none)).2.2 rfl⟩

/-- C2: when exactly one amplitude is exactly zero, `get_vector` returns a
pole of the Bloch sphere: `(0, 0, -1)` (south pole) when `alpha = 0`, and
`(0, 0, 1)` (north pole) when `beta = 0`. -/
theorem get_vector_pole (α β : ℂ) :
    (α = 0 → β ≠ 0 → get_vector α β = (0, 0, -1)) ∧
    (α ≠ 0 → β = 0 → get_vector α β = (0, 0, 1)) := by
  constructor
  · intro h0 _
    subst h0
    simp [get_vector]
  · intro hα h0
    subst h0
    unfold get_vector
    rw [if_pos (Or.inr (map_zero _)), if_neg hα]

/-- Witness for C2: the poles at the two basis states. -/
theorem get_vector_pole_witness :
    get_vector 0 1 = (0, 0, -1) ∧ get_vector 1 0 = (0, 0, 1) :=
  ⟨(get_vector_pole 0 1).1 rfl one_ne_zero,
   (get_vector_pole 1 0).2 one_ne_zero rfl⟩

/-- C4: `plot_histogram` draws exactly one bar per key (bars at positions
`0..n-1`, one per entry), the i-th bar having the i-th value as its height
and the i-th key as its x-axis tick label, with no input validation and no
special branch for the empty mapping (which yields the empty chart). -/
theorem plot_histogram_bars (counts : List (String × ℕ)) :
    (plot_histogram counts).barHeights.length = counts.length ∧
    (plot_histogram counts).tickLabels.length = counts.length ∧
    (plot_histogram counts).barPositions = List.range counts.length ∧
    (plot_histogram counts).tickPositions = (plot_histogram counts).barPositions ∧
    (∀ i : ℕ, (plot_histogram counts).barHeights[i]? = (counts[i]?).map Prod.snd) ∧
    (∀ i : ℕ, (plot_histogram counts).tickLabels[i]? = (counts[i]?).map Prod.fst) ∧
    plot_histogram [] = ⟨[], [], [], []⟩ := by
  refine ⟨by simp [plot_histogram], by simp [plot_histogram], rfl, rfl, ?_, ?_, rfl⟩
  · intro i
    simp [plot_histogram]
  · intro i
    simp [plot_histogram]

/-- C5: the `hhl` demonstration circuit is a fixed linear sequence of 39
appended operations, every operation acts only on qubits of
`cirq.LineQubit.range(6)` (indices < 6), all six qubits are used, the final
appended operation is `cirq.measure(q[0], q[5], key='result')`, and no other
operation is a measurement. -/
theorem hhl_structure :
    hhl.length = 39 ∧
    (hhl.all fun g => (gateQubits g).all (· < 6)) = true ∧
    ((List.range 6).all fun i => hhl.any fun g => (gateQubits g).contains i) = true ∧
    hhl.getLast? = some (Gate.measureGate [0, 5] "result") ∧
    (hhl.dropLast.all fun g => !gateIsMeasure g) = true :=
  ⟨rfl, rfl, rfl, rfl, rfl⟩

/-- C7: `get_vector` feeds the global-phase denominator the snapped angles:
a computed phase that is close to π under `cmath.isclose`'s default
tolerance is replaced by 0, a phase not close to π is used unchanged, and in
particular any non-positive phase (e.g. one close to -π) is never snapped. -/
theorem snap_behavior (α β : ℂ) :
    denominator α β = denominator_angles (snap α.arg) (snap β.arg) ∧
    (isclose α.arg Real.pi → snap α.arg = 0) ∧
    (¬isclose α.arg Real.pi → snap α.arg = α.arg) ∧
    (α.arg ≤ 0 → snap α.arg = α.arg) := by
  refine ⟨rfl, fun h => if_pos h, fun h => if_neg h, fun h => ?_⟩
  have hπ := Real.pi_pos
  have h1 : |α.arg| ≤ Real.pi := Complex.abs_arg_le_pi α
  apply if_neg
  unfold isclose
  have habs : |α.arg - Real.pi| = Real.pi - α.arg := by
    rw [abs_of_nonpos (by linarith)]
    ring
  rw [habs, abs_of_pos hπ, max_eq_right h1]
  intro hc
  nlinarith

/-- Witness for C7: the phase of -1 is exactly π and is snapped to 0, while
the phase of 1 (which is 0, hence not close to π) is used unchanged. -/
theorem snap_behavior_witness :
    snap ((-1 : ℂ)).arg = 0 ∧ snap ((1 : ℂ)).arg = (1 : ℂ).arg := by
  constructor
  · apply (snap_behavior (-1) 1).2.1
    rw [Complex.arg_neg_one]
    unfold isclose
    simp only [sub_self, abs_zero]
    positivity
  · exact (snap_behavior 1 1).2.2.2 (by simp [Complex.arg_one])

/-! ### Helper lemmas for `get_vector` -/

/-- The principal square root squares to its argument. -/
theorem csqrt_sq (w : ℂ) : (w ^ ((1 : ℂ) / 2)) ^ 2 = w := by
  by_cases hw : w = 0
  · subst hw
    rw [Complex.zero_cpow (by norm_num)]
    norm_num
  · rw [sq, ← Complex.cpow_add _ _ hw]
    norm_num

/-- The argument of the logarithm inside `cacos` never vanishes. -/
theorem cacos_arg_ne_zero (z : ℂ) :
    z + Complex.I * (1 - z ^ 2) ^ ((1 : ℂ) / 2) ≠ 0 := by
  intro h
  have hS2 : ((1 - z ^ 2) ^ ((1 : ℂ) / 2)) ^ 2 = 1 - z ^ 2 := csqrt_sq _
  have hI : Complex.I ^ 2 = -1 := Complex.I_sq
  have h2 : z ^ 2 + ((1 - z ^ 2) ^ ((1 : ℂ) / 2)) ^ 2 = 0 := by
    linear_combination (z - Complex.I * (1 - z ^ 2) ^ ((1 : ℂ) / 2)) * h +
      ((1 - z ^ 2) ^ ((1 : ℂ) / 2)) ^ 2 * hI
  rw [hS2] at h2
  exact one_ne_zero (by linear_combination h2)

/-- `exp (cacos z * I)` recovers `z + i sqrt(1 - z^2)`. -/
theorem exp_cacos_mul_I (z : ℂ) :
    Complex.exp (cacos z * Complex.I) =
      z + Complex.I * (1 - z ^ 2) ^ ((1 : ℂ) / 2) := by
  have h1 : cacos z * Complex.I =
      Complex.log (z + Complex.I * (1 - z ^ 2) ^ ((1 : ℂ) / 2)) := by
    unfold cacos
    linear_combination
      -(Complex.log (z + Complex.I * (1 - z ^ 2) ^ ((1 : ℂ) / 2))) * Complex.I_sq
  rw [h1, Complex.exp_log (cacos_arg_ne_zero z)]

/-- `exp (-cacos z * I)` recovers `z - i sqrt(1 - z^2)`. -/
theorem exp_neg_cacos_mul_I (z : ℂ) :
    Complex.exp (-cacos z * Complex.I) =
      z - Complex.I * (1 - z ^ 2) ^ ((1 : ℂ) / 2) := by
  have hS2 : ((1 - z ^ 2) ^ ((1 : ℂ) / 2)) ^ 2 = 1 - z ^ 2 := csqrt_sq _
  have hI : Complex.I ^ 2 = -1 := Complex.I_sq
  rw [neg_mul, Complex.exp_neg, exp_cacos_mul_I]
  exact inv_eq_of_mul_eq_one_right
    (by linear_combination (-(((1 - z ^ 2) ^ ((1 : ℂ) / 2)) ^ 2)) * hI + hS2)

/-- The principal arccosine is a right inverse of the complex cosine. -/
theorem cos_cacos (z : ℂ) : Complex.cos (cacos z) = z := by
  rw [Complex.cos, exp_cacos_mul_I, exp_neg_cacos_mul_I]
  ring

/-- The complex sine of the principal arccosine is the principal square root
of `1 - z^2`. -/
theorem sin_cacos (z : ℂ) : Complex.sin (cacos z) = (1 - z ^ 2) ^ ((1 : ℂ) / 2) := by
  have hI : Complex.I ^ 2 = -1 := Complex.I_sq
  rw [Complex.sin, exp_neg_cacos_mul_I, exp_cacos_mul_I]
  linear_combination (-((1 - z ^ 2) ^ ((1 : ℂ) / 2))) * hI

/-- No real number up to `3π/4` is close to `π` under the default
`cmath.isclose` tolerance. -/
theorem not_isclose_pi {x : ℝ} (hlo : -Real.pi ≤ x) (hhi : x ≤ 3 * Real.pi / 4) :
    ¬ isclose x Real.pi := by
  have hπ := Real.pi_pos
  unfold isclose
  rw [abs_of_nonpos (by linarith : x - Real.pi ≤ 0), abs_of_pos hπ,
    max_eq_right (abs_le.mpr ⟨hlo, by linarith⟩)]
  intro h
  nlinarith

/-- The denominator of `get_vector` always has modulus 1. -/
theorem denominator_abs (α β : ℂ) : Complex.abs (denominator α β) = 1 := by
  unfold denominator denominator_angles
  split_ifs <;> rw [Complex.abs_exp] <;> simp

/-- The denominator of `get_vector` is never zero. -/
theorem denominator_ne_zero (α β : ℂ) : denominator α β ≠ 0 := by
  unfold denominator denominator_angles
  split_ifs <;> exact Complex.exp_ne_zero _

/-- Dividing by the denominator preserves the modulus of `alpha`. -/
theorem abs_alpha_new (α β : ℂ) :
    Complex.abs (alpha_new α β) = Complex.abs α := by
  unfold alpha_new
  rw [map_div₀, denominator_abs, div_one]

/-- Dividing by the denominator preserves the modulus of `beta`. -/
theorem abs_beta_new (α β : ℂ) :
    Complex.abs (beta_new α β) = Complex.abs β := by
  unfold beta_new
  rw [map_div₀, denominator_abs, div_one]

/-- On real arguments in `[-1, 1]`, `cacos` agrees with the real arccosine. -/
theorem cacos_ofReal (t : ℝ) (h1 : -1 ≤ t) (h2 : t ≤ 1) :
    cacos ((t : ℝ) : ℂ) = ((Real.arccos t : ℝ) : ℂ) := by
  have h0 : (0 : ℝ) ≤ 1 - t ^ 2 := by nlinarith
  have hπ := Real.pi_pos
  have hsq : ((1 : ℂ) - ((t : ℝ) : ℂ) ^ 2) ^ ((1 : ℂ) / 2) =
      ((Real.sqrt (1 - t ^ 2) : ℝ) : ℂ) := by
    have he : ((1 : ℂ) - ((t : ℝ) : ℂ) ^ 2) = (((1 - t ^ 2 : ℝ)) : ℂ) := by
      push_cast
      ring
    have h12 : ((1 : ℂ) / 2) = (((1 / 2 : ℝ)) : ℂ) := by norm_num
    rw [he, h12, ← Complex.ofReal_cpow h0, ← Real.sqrt_eq_rpow]
  unfold cacos
  rw [hsq]
  have hcos : ((t : ℝ) : ℂ) = Complex.cos ((Real.arccos t : ℝ) : ℂ) := by
    rw [← Complex.ofReal_cos, Real.cos_arccos h1 h2]
  have hsin : ((Real.sqrt (1 - t ^ 2) : ℝ) : ℂ) =
      Complex.sin ((Real.arccos t : ℝ) : ℂ) := by
    rw [← Complex.ofReal_sin, Real.sin_arccos]
  rw [hcos, hsin]
  have hw : Complex.cos ((Real.arccos t : ℝ) : ℂ) +
      Complex.I * Complex.sin ((Real.arccos t : ℝ) : ℂ) =
      Complex.exp (((Real.arccos t : ℝ) : ℂ) * Complex.I) := by
    rw [Complex.exp_mul_I]
    ring
  rw [hw, Complex.log_exp (by simpa using lt_of_lt_of_le (by linarith) (Real.arccos_nonneg t))
    (by simpa using Real.arccos_le_pi t)]
  linear_combination (-((Real.arccos t : ℝ) : ℂ)) * Complex.I_sq

/-- C9: for every normalized input pair, `get_vector` raises no exception:
the denominator used for global-phase elimination is never zero, and when
both amplitudes are nonzero (the only case in which the division
`beta_new / sin(theta/2)` is reached) the divisor `sin(theta/2)` is nonzero,
and so is the quotient fed to `cmath.log`. -/
theorem get_vector_no_exception (α β : ℂ)
    (hn : Complex.normSq α + Complex.normSq β = 1) :
    denominator α β ≠ 0 ∧
    (α ≠ 0 → β ≠ 0 →
      Complex.sin (theta α β / 2) ≠ 0 ∧
      beta_new α β / Complex.sin (theta α β / 2) ≠ 0) := by
  refine ⟨denominator_ne_zero α β, fun hα hβ => ?_⟩
  have habs : Complex.abs (alpha_new α β) < 1 := by
    rw [abs_alpha_new]
    have h1 : Complex.normSq α < 1 := by
      have := Complex.normSq_pos.mpr hβ
      linarith
    nlinarith [Complex.sq_abs α, Complex.abs.nonneg α]
  have hθ2 : theta α β / 2 = cacos (alpha_new α β) := by
    unfold theta
    ring
  have hsin : Complex.sin (theta α β / 2) ≠ 0 := by
    rw [hθ2, sin_cacos]
    intro h0
    have h2 : ((1 : ℂ) - alpha_new α β ^ 2) = 0 := by
      rw [← csqrt_sq ((1 : ℂ) - alpha_new α β ^ 2), h0]
      norm_num
    have h3 : alpha_new α β ^ 2 = 1 := by linear_combination -h2
    have h4 : Complex.abs (alpha_new α β) ^ 2 = 1 := by
      rw [← map_pow, h3, map_one]
    nlinarith [Complex.abs.nonneg (alpha_new α β)]
  refine ⟨hsin, div_ne_zero ?_ hsin⟩
  unfold beta_new
  exact div_ne_zero hβ (denominator_ne_zero α β)

/-- Witness for C9 at the normalized real pair (3/5, 4/5). -/
theorem get_vector_no_exception_witness :
    denominator ((3 / 5 : ℝ) : ℂ) ((4 / 5 : ℝ) : ℂ) ≠ 0 ∧
    Complex.sin (theta ((3 / 5 : ℝ) : ℂ) ((4 / 5 : ℝ) : ℂ) / 2) ≠ 0 := by
  have hn : Complex.normSq ((3 / 5 : ℝ) : ℂ) + Complex.normSq ((4 / 5 : ℝ) : ℂ) = 1 := by
    rw [Complex.normSq_ofReal, Complex.normSq_ofReal]
    norm_num
  have h := get_vector_no_exception _ _ hn
  exact ⟨h.1, (h.2 (Complex.ofReal_ne_zero.mpr (by norm_num))
    (Complex.ofReal_ne_zero.mpr (by norm_num))).1⟩

/-- C1 (amended): for every normalized pair with both amplitudes nonzero
such that the phase-eliminated amplitude `alpha_new = alpha/denominator` is
a real number (in particular whenever the chosen denominator carries exactly
the phase of `alpha`), `get_vector` returns a vector of unit length,
obtained by converting the spherical coordinates theta, phi to Cartesian
coordinates. -/
theorem get_vector_unit_of_real_alpha_new (α β : ℂ)
    (hn : Complex.normSq α + Complex.normSq β = 1) (hα : α ≠ 0) (hβ : β ≠ 0)
    (him : (alpha_new α β).im = 0) :
    (get_vector α β).1 ^ 2 + (get_vector α β).2.1 ^ 2 + (get_vector α β).2.2 ^ 2 = 1 := by
  have hcond : ¬(Complex.abs α = 0 ∨ Complex.abs β = 0) := by
    simp [hα, hβ]
  obtain ⟨t, ht⟩ : ∃ t : ℝ, (t : ℂ) = alpha_new α β := by
    refine ⟨(alpha_new α β).re, ?_⟩
    have h := Complex.re_add_im (alpha_new α β)
    rw [him] at h
    simpa using h
  have habst : |t| = Complex.abs α := by
    rw [← abs_alpha_new α β, ← ht, Complex.abs_ofReal]
  have habs : |t| < 1 := by
    have h2 : Complex.normSq α < 1 := by
      have := Complex.normSq_pos.mpr hβ
      linarith
    nlinarith [Complex.sq_abs α, Complex.abs.nonneg α]
  have hθ : theta α β = ((2 * Real.arccos t : ℝ) : ℂ) := by
    unfold theta
    rw [← ht, cacos_ofReal _ (abs_le.mp habs.le).1 (abs_le.mp habs.le).2]
    push_cast
    ring
  have hθ2 : theta α β / 2 = ((Real.arccos t : ℝ) : ℂ) := by
    rw [hθ]
    push_cast
    ring
  have hβabs : (0 : ℝ) < Complex.abs β := Complex.abs.pos hβ
  have hc2 : Real.sqrt (1 - t ^ 2) = Complex.abs β := by
    have h4 := Complex.sq_abs α
    rw [← habst] at h4
    have h5 : (1 : ℝ) - t ^ 2 = Complex.normSq β := by
      nlinarith [sq_abs t]
    rw [h5, Complex.abs_apply]
  have hsin2 : Complex.sin (theta α β / 2) = ((Complex.abs β : ℝ) : ℂ) := by
    rw [hθ2, ← Complex.ofReal_sin, Real.sin_arccos, hc2]
  have hρabs : Complex.abs (beta_new α β / Complex.sin (theta α β / 2)) = 1 := by
    rw [map_div₀, hsin2, abs_beta_new, Complex.abs_ofReal, abs_of_pos hβabs,
      div_self (ne_of_gt hβabs)]
  have hφ : phi α β =
      (((beta_new α β / Complex.sin (theta α β / 2)).arg : ℝ) : ℂ) := by
    unfold phi
    have hlog : Complex.log (beta_new α β / Complex.sin (theta α β / 2)) =
        ((beta_new α β / Complex.sin (theta α β / 2)).arg : ℂ) * Complex.I := by
      unfold Complex.log
      rw [hρabs]
      simp
    rw [hlog]
    linear_combination
      (-(((beta_new α β / Complex.sin (theta α β / 2)).arg : ℝ) : ℂ)) * Complex.I_sq
  obtain ⟨ψ, hφψ⟩ : ∃ ψ : ℝ, phi α β = ((ψ : ℝ) : ℂ) := ⟨_, hφ⟩
  have hgv : get_vector α β =
      ((Complex.sin (theta α β) * Complex.cos (phi α β)).re,
       (Complex.sin (theta α β) * Complex.sin (phi α β)).re,
       (Complex.cos (theta α β)).re) := by
    unfold get_vector
    rw [if_neg hcond]
  rw [hgv]
  have e1 : (Complex.sin (theta α β) * Complex.cos (phi α β)).re =
      Real.sin (2 * Real.arccos t) * Real.cos ψ := by
    rw [hθ, hφψ, ← Complex.ofReal_sin, ← Complex.ofReal_cos, ← Complex.ofReal_mul,
      Complex.ofReal_re]
  have e2 : (Complex.sin (theta α β) * Complex.sin (phi α β)).re =
      Real.sin (2 * Real.arccos t) * Real.sin ψ := by
    rw [hθ, hφψ, ← Complex.ofReal_sin, ← Complex.ofReal_sin, ← Complex.ofReal_mul,
      Complex.ofReal_re]
  have e3 : (Complex.cos (theta α β)).re = Real.cos (2 * Real.arccos t) := by
    rw [hθ, ← Complex.ofReal_cos, Complex.ofReal_re]
  rw [e1, e2, e3]
  have hs1 := Real.sin_sq_add_cos_sq (2 * Real.arccos t)
  have hs2 := Real.sin_sq_add_cos_sq ψ
  linear_combination (Real.sin (2 * Real.arccos t) ^ 2) * hs2 + hs1

/-- Snapping leaves the angle 0 unchanged (both branches give 0). -/
theorem snap_zero : snap 0 = 0 := by
  unfold snap
  split_ifs <;> rfl

/-- For two positive real amplitudes the denominator is 1. -/
theorem denominator_ofReal_pos {a b : ℝ} (ha : 0 < a) (hb : 0 < b) :
    denominator ((a : ℝ) : ℂ) ((b : ℝ) : ℂ) = 1 := by
  unfold denominator
  rw [Complex.arg_ofReal_of_nonneg ha.le, Complex.arg_ofReal_of_nonneg hb.le, snap_zero]
  unfold denominator_angles
  rw [if_neg (by norm_num)]
  simp

/-- Witness for the amended C1 at the normalized pair (3/5, 4/5): both
amplitudes are nonzero, the phase-eliminated alpha is real, and the returned
vector has unit length. -/
theorem get_vector_unit_of_real_alpha_new_witness :
    Complex.normSq ((3 / 5 : ℝ) : ℂ) + Complex.normSq ((4 / 5 : ℝ) : ℂ) = 1 ∧
    (get_vector ((3 / 5 : ℝ) : ℂ) ((4 / 5 : ℝ) : ℂ)).1 ^ 2 +
      (get_vector ((3 / 5 : ℝ) : ℂ) ((4 / 5 : ℝ) : ℂ)).2.1 ^ 2 +
      (get_vector ((3 / 5 : ℝ) : ℂ) ((4 / 5 : ℝ) : ℂ)).2.2 ^ 2 = 1 := by
  have hn : Complex.normSq ((3 / 5 : ℝ) : ℂ) + Complex.normSq ((4 / 5 : ℝ) : ℂ) = 1 := by
    rw [Complex.normSq_ofReal, Complex.normSq_ofReal]
    norm_num
  have him : (alpha_new ((3 / 5 : ℝ) : ℂ) ((4 / 5 : ℝ) : ℂ)).im = 0 := by
    unfold alpha_new
    rw [denominator_ofReal_pos (by norm_num) (by norm_num), div_one, Complex.ofReal_im]
  exact ⟨hn, get_vector_unit_of_real_alpha_new _ _ hn
    (Complex.ofReal_ne_zero.mpr (by norm_num))
    (Complex.ofReal_ne_zero.mpr (by norm_num)) him⟩

/-! ### The concrete inputs refuting C1 and C8 as stated -/

/-- The argument of `(-1+i)/2` is `3π/4`. -/
theorem arg_m1p : ((-1 + Complex.I) / 2 : ℂ).arg = 3 * Real.pi / 4 := by
  have hπ := Real.pi_pos
  have h : ((-1 + Complex.I) / 2 : ℂ) =
      ((Real.sqrt 2 / 2 : ℝ) : ℂ) *
        (Complex.cos ((3 * Real.pi / 4 : ℝ) : ℂ) +
         Complex.sin ((3 * Real.pi / 4 : ℝ) : ℂ) * Complex.I) := by
    rw [← Complex.ofReal_cos, ← Complex.ofReal_sin]
    have hc : Real.cos (3 * Real.pi / 4) = -(Real.sqrt 2 / 2) := by
      rw [show (3 * Real.pi / 4 : ℝ) = Real.pi - Real.pi / 4 by ring, Real.cos_pi_sub,
        Real.cos_pi_div_four]
    have hs : Real.sin (3 * Real.pi / 4) = Real.sqrt 2 / 2 := by
      rw [show (3 * Real.pi / 4 : ℝ) = Real.pi - Real.pi / 4 by ring, Real.sin_pi_sub,
        Real.sin_pi_div_four]
    rw [hc, hs]
    have h2 : (Real.sqrt 2 : ℂ) * (Real.sqrt 2 : ℂ) = 2 := by
      norm_cast
      exact_mod_cast Real.mul_self_sqrt (by norm_num)
    push_cast
    linear_combination ((1 : ℂ) / 4 - Complex.I / 4) * h2
  rw [h]
  exact Complex.arg_mul_cos_add_sin_mul_I (by positivity)
    (Set.mem_Ioc.mpr ⟨by linarith, by linarith⟩)

/-- The argument of `(1+i)/2` is `π/4`. -/
theorem arg_p1p : ((1 + Complex.I) / 2 : ℂ).arg = Real.pi / 4 := by
  have hπ := Real.pi_pos
  have h : ((1 + Complex.I) / 2 : ℂ) =
      ((Real.sqrt 2 / 2 : ℝ) : ℂ) *
        (Complex.cos ((Real.pi / 4 : ℝ) : ℂ) +
         Complex.sin ((Real.pi / 4 : ℝ) : ℂ) * Complex.I) := by
    rw [← Complex.ofReal_cos, ← Complex.ofReal_sin, Real.cos_pi_div_four,
      Real.sin_pi_div_four]
    have h2 : (Real.sqrt 2 : ℂ) * (Real.sqrt 2 : ℂ) = 2 := by
      norm_cast
      exact_mod_cast Real.mul_self_sqrt (by norm_num)
    push_cast
    linear_combination (-(1 : ℂ) / 4 - Complex.I / 4) * h2
  rw [h]
  exact Complex.arg_mul_cos_add_sin_mul_I (by positivity)
    (Set.mem_Ioc.mpr ⟨by linarith, by linarith⟩)

/-- The argument of `(-1-i)/2` is `-(3π/4)`. -/
theorem arg_m1m : ((-1 - Complex.I) / 2 : ℂ).arg = -(3 * Real.pi / 4) := by
  have hπ := Real.pi_pos
  have h : ((-1 - Complex.I) / 2 : ℂ) =
      ((Real.sqrt 2 / 2 : ℝ) : ℂ) *
        (Complex.cos ((-(3 * Real.pi / 4) : ℝ) : ℂ) +
         Complex.sin ((-(3 * Real.pi / 4) : ℝ) : ℂ) * Complex.I) := by
    rw [← Complex.ofReal_cos, ← Complex.ofReal_sin, Real.cos_neg, Real.sin_neg]
    have hc : Real.cos (3 * Real.pi / 4) = -(Real.sqrt 2 / 2) := by
      rw [show (3 * Real.pi / 4 : ℝ) = Real.pi - Real.pi / 4 by ring, Real.cos_pi_sub,
        Real.cos_pi_div_four]
    have hs : Real.sin (3 * Real.pi / 4) = Real.sqrt 2 / 2 := by
      rw [show (3 * Real.pi / 4 : ℝ) = Real.pi - Real.pi / 4 by ring, Real.sin_pi_sub,
        Real.sin_pi_div_four]
    rw [hc, hs]
    have h2 : (Real.sqrt 2 : ℂ) * (Real.sqrt 2 : ℂ) = 2 := by
      norm_cast
      exact_mod_cast Real.mul_self_sqrt (by norm_num)
    push_cast
    linear_combination ((1 : ℂ) / 4 + Complex.I / 4) * h2
  rw [h]
  exact Complex.arg_mul_cos_add_sin_mul_I (by positivity)
    (Set.mem_Ioc.mpr ⟨by linarith, by linarith⟩)

/-- `(-1+i)/2` is nonzero. -/
theorem ne_m1p : ((-1 + Complex.I) / 2 : ℂ) ≠ 0 := by
  apply div_ne_zero _ two_ne_zero
  intro h
  have := congrArg Complex.re h
  simp at this

/-- `(1+i)/2` is nonzero. -/
theorem ne_p1p : ((1 + Complex.I) / 2 : ℂ) ≠ 0 := by
  apply div_ne_zero _ two_ne_zero
  intro h
  have := congrArg Complex.re h
  simp at this

/-- `(-1-i)/2` is nonzero. -/
theorem ne_m1m : ((-1 - Complex.I) / 2 : ℂ) ≠ 0 := by
  apply div_ne_zero _ two_ne_zero
  intro h
  have := congrArg Complex.re h
  simp at this

/-- On the input pair `((-1+i)/2, (1+i)/2)` the branch that divides by
`exp(i·angle_beta)` is taken, the phase-eliminated alpha is `i/√2`, and the
z-component of the returned vector is `-2`. -/
theorem get_vector_cex_z :
    (get_vector ((-1 + Complex.I) / 2) ((1 + Complex.I) / 2)).2.2 = -2 := by
  have hπ := Real.pi_pos
  have hcond : ¬(Complex.abs ((-1 + Complex.I) / 2 : ℂ) = 0 ∨
      Complex.abs ((1 + Complex.I) / 2 : ℂ) = 0) := by
    rintro (h | h)
    · exact ne_m1p (by rwa [map_eq_zero] at h)
    · exact ne_p1p (by rwa [map_eq_zero] at h)
  have hsa : snap (((-1 + Complex.I) / 2 : ℂ).arg) = 3 * Real.pi / 4 := by
    rw [arg_m1p]
    unfold snap
    rw [if_neg (not_isclose_pi (by linarith) (by linarith))]
  have hsb : snap (((1 + Complex.I) / 2 : ℂ).arg) = Real.pi / 4 := by
    rw [arg_p1p]
    unfold snap
    rw [if_neg (not_isclose_pi (by linarith) (by linarith))]
  have hd : denominator ((-1 + Complex.I) / 2) ((1 + Complex.I) / 2) =
      Complex.exp (Complex.I * ((Real.pi / 4 : ℝ) : ℂ)) := by
    unfold denominator
    rw [hsa, hsb]
    unfold denominator_angles
    rw [if_pos (Or.inr ⟨by linarith, by linarith⟩)]
  have hd2 : Complex.exp (Complex.I * ((Real.pi / 4 : ℝ) : ℂ)) ^ 2 = Complex.I := by
    rw [sq, ← Complex.exp_add]
    have he : Complex.I * ((Real.pi / 4 : ℝ) : ℂ) + Complex.I * ((Real.pi / 4 : ℝ) : ℂ) =
        ((Real.pi / 2 : ℝ) : ℂ) * Complex.I := by
      push_cast
      ring
    rw [he, Complex.exp_mul_I, ← Complex.ofReal_cos, ← Complex.ofReal_sin,
      Real.cos_pi_div_two, Real.sin_pi_div_two]
    simp
  have hα2 : ((-1 + Complex.I) / 2 : ℂ) ^ 2 = -Complex.I / 2 := by
    linear_combination ((1 : ℂ) / 4) * Complex.I_sq
  have ha2 : alpha_new ((-1 + Complex.I) / 2) ((1 + Complex.I) / 2) ^ 2 = -(1 : ℂ) / 2 := by
    unfold alpha_new
    rw [div_pow, hd, hα2, hd2, div_eq_iff Complex.I_ne_zero]
    ring
  have hz : Complex.cos (theta ((-1 + Complex.I) / 2) ((1 + Complex.I) / 2)) = -2 := by
    unfold theta
    rw [Complex.cos_two_mul, cos_cacos, ha2]
    norm_num
  unfold get_vector
  rw [if_neg hcond]
  show (Complex.cos (theta ((-1 + Complex.I) / 2) ((1 + Complex.I) / 2))).re = -2
  rw [hz]
  simp

/-- On the input pair `((-1-i)/2, (-1+i)/2)` (the previous pair multiplied
by the global phase `i`) the other denominator branch is taken, the
phase-eliminated alpha is `1/√2`, and the z-component of the returned
vector is `0`. -/
theorem get_vector_cex_z_rotated :
    (get_vector ((-1 - Complex.I) / 2) ((-1 + Complex.I) / 2)).2.2 = 0 := by
  have hπ := Real.pi_pos
  have hcond : ¬(Complex.abs ((-1 - Complex.I) / 2 : ℂ) = 0 ∨
      Complex.abs ((-1 + Complex.I) / 2 : ℂ) = 0) := by
    rintro (h | h)
    · exact ne_m1m (by rwa [map_eq_zero] at h)
    · exact ne_m1p (by rwa [map_eq_zero] at h)
  have hsa : snap (((-1 - Complex.I) / 2 : ℂ).arg) = -(3 * Real.pi / 4) := by
    rw [arg_m1m]
    unfold snap
    rw [if_neg (not_isclose_pi (by linarith) (by linarith))]
  have hsb : snap (((-1 + Complex.I) / 2 : ℂ).arg) = 3 * Real.pi / 4 := by
    rw [arg_m1p]
    unfold snap
    rw [if_neg (not_isclose_pi (by linarith) (by linarith))]
  have hd : denominator ((-1 - Complex.I) / 2) ((-1 + Complex.I) / 2) =
      Complex.exp (Complex.I * ((-(3 * Real.pi / 4) : ℝ) : ℂ)) := by
    unfold denominator
    rw [hsa, hsb]
    unfold denominator_angles
    rw [if_neg]
    rintro (⟨h1, -⟩ | ⟨-, h2⟩)
    · linarith
    · linarith
  have hd2 : Complex.exp (Complex.I * ((-(3 * Real.pi / 4) : ℝ) : ℂ)) ^ 2 = Complex.I := by
    rw [sq, ← Complex.exp_add]
    have he : Complex.I * ((-(3 * Real.pi / 4) : ℝ) : ℂ) +
        Complex.I * ((-(3 * Real.pi / 4) : ℝ) : ℂ) =
        ((Real.pi / 2 - 2 * Real.pi : ℝ) : ℂ) * Complex.I := by
      push_cast
      ring
    rw [he, Complex.exp_mul_I, ← Complex.ofReal_cos, ← Complex.ofReal_sin,
      Real.cos_sub_two_pi, Real.sin_sub_two_pi, Real.cos_pi_div_two, Real.sin_pi_div_two]
    simp
  have hα2 : ((-1 - Complex.I) / 2 : ℂ) ^ 2 = Complex.I / 2 := by
    linear_combination ((1 : ℂ) / 4) * Complex.I_sq
  have ha2 : alpha_new ((-1 - Complex.I) / 2) ((-1 + Complex.I) / 2) ^ 2 = (1 : ℂ) / 2 := by
    unfold alpha_new
    rw [div_pow, hd, hα2, hd2, div_eq_iff Complex.I_ne_zero]
    ring
  have hz : Complex.cos (theta ((-1 - Complex.I) / 2) ((-1 + Complex.I) / 2)) = 0 := by
    unfold theta
    rw [Complex.cos_two_mul, cos_cacos, ha2]
    norm_num
  unfold get_vector
  rw [if_neg hcond]
  show (Complex.cos (theta ((-1 - Complex.I) / 2) ((-1 + Complex.I) / 2))).re = 0
  rw [hz]
  simp

/-- Counterexample to C1 as stated: the pair `((-1+i)/2, (1+i)/2)` is
normalized with both amplitudes nonzero, yet the vector returned by
`get_vector` does not have unit length (its z-component is `-2`). -/
theorem get_vector_unit_cex :
    Complex.normSq ((-1 + Complex.I) / 2) + Complex.normSq ((1 + Complex.I) / 2) = 1 ∧
    ((-1 + Complex.I) / 2 : ℂ) ≠ 0 ∧ ((1 + Complex.I) / 2 : ℂ) ≠ 0 ∧
    (get_vector ((-1 + Complex.I) / 2) ((1 + Complex.I) / 2)).1 ^ 2 +
      (get_vector ((-1 + Complex.I) / 2) ((1 + Complex.I) / 2)).2.1 ^ 2 +
      (get_vector ((-1 + Complex.I) / 2) ((1 + Complex.I) / 2)).2.2 ^ 2 ≠ 1 := by
  refine ⟨?_, ne_m1p, ne_p1p, ?_⟩
  · norm_num [Complex.normSq_div, Complex.normSq_apply]
  · rw [get_vector_cex_z]
    intro h
    nlinarith [sq_nonneg (get_vector ((-1 + Complex.I) / 2) ((1 + Complex.I) / 2)).1,
      sq_nonneg (get_vector ((-1 + Complex.I) / 2) ((1 + Complex.I) / 2)).2.1]

/-- For a nonzero complex number, `exp(i·arg z)` is `z` divided by its
modulus. -/
theorem exp_I_mul_arg (z : ℂ) (hz : z ≠ 0) :
    Complex.exp (Complex.I * ((z.arg : ℝ) : ℂ)) = z / ((Complex.abs z : ℝ) : ℂ) := by
  have habs0 : ((Complex.abs z : ℝ) : ℂ) ≠ 0 :=
    Complex.ofReal_ne_zero.mpr (Complex.abs.ne_zero hz)
  have h := Complex.abs_mul_exp_arg_mul_I z
  rw [mul_comm ((z.arg : ℝ) : ℂ) Complex.I] at h
  rw [eq_div_iff habs0]
  linear_combination h

/-- C8 (amended): `get_vector` is invariant under a global phase whenever no
snapping occurs and the `exp(i·angle_alpha)` denominator branch is taken for
both the original and the phase-shifted pair: under these conditions both
pairs are divided by the phase of their own alpha, and the phase-eliminated
amplitudes coincide. -/
theorem get_vector_global_phase_inv (α β : ℂ) (ψ : ℝ)
    (_hn : Complex.normSq α + Complex.normSq β = 1)
    (hα : α ≠ 0) (hβ : β ≠ 0)
    (hsa : ¬isclose α.arg Real.pi) (hsb : ¬isclose β.arg Real.pi)
    (hsa2 : ¬isclose (Complex.exp (Complex.I * ((ψ : ℝ) : ℂ)) * α).arg Real.pi)
    (hsb2 : ¬isclose (Complex.exp (Complex.I * ((ψ : ℝ) : ℂ)) * β).arg Real.pi)
    (hbr : ¬((β.arg < 0 ∧ α.arg < β.arg) ∨ (0 < β.arg ∧ β.arg < α.arg)))
    (hbr2 : ¬(((Complex.exp (Complex.I * ((ψ : ℝ) : ℂ)) * β).arg < 0 ∧
          (Complex.exp (Complex.I * ((ψ : ℝ) : ℂ)) * α).arg <
            (Complex.exp (Complex.I * ((ψ : ℝ) : ℂ)) * β).arg) ∨
        (0 < (Complex.exp (Complex.I * ((ψ : ℝ) : ℂ)) * β).arg ∧
          (Complex.exp (Complex.I * ((ψ : ℝ) : ℂ)) * β).arg <
            (Complex.exp (Complex.I * ((ψ : ℝ) : ℂ)) * α).arg))) :
    get_vector (Complex.exp (Complex.I * ((ψ : ℝ) : ℂ)) * α)
        (Complex.exp (Complex.I * ((ψ : ℝ) : ℂ)) * β) =
      get_vector α β := by
  obtain ⟨g, hg⟩ : ∃ g : ℂ, Complex.exp (Complex.I * ((ψ : ℝ) : ℂ)) = g := ⟨_, rfl⟩
  rw [hg] at hsa2 hsb2 hbr2 ⊢
  have hg0 : g ≠ 0 := hg ▸ Complex.exp_ne_zero _
  have hgabs : Complex.abs g = 1 := by
    rw [← hg, Complex.abs_exp]
    simp
  have hα2 : g * α ≠ 0 := mul_ne_zero hg0 hα
  have hβ2 : g * β ≠ 0 := mul_ne_zero hg0 hβ
  have hd1 : denominator α β = Complex.exp (Complex.I * ((α.arg : ℝ) : ℂ)) := by
    unfold denominator snap
    rw [if_neg hsa, if_neg hsb]
    unfold denominator_angles
    rw [if_neg hbr]
  have hd2 : denominator (g * α) (g * β) =
      Complex.exp (Complex.I * (((g * α).arg : ℝ) : ℂ)) := by
    unfold denominator snap
    rw [if_neg hsa2, if_neg hsb2]
    unfold denominator_angles
    rw [if_neg hbr2]
  have hca : ((Complex.abs α : ℝ) : ℂ) ≠ 0 :=
    Complex.ofReal_ne_zero.mpr (Complex.abs.ne_zero hα)
  have hA : alpha_new (g * α) (g * β) = alpha_new α β := by
    unfold alpha_new
    rw [hd1, hd2, exp_I_mul_arg _ hα2, exp_I_mul_arg _ hα, map_mul, hgabs, one_mul]
    have e : ∀ w : ℂ, w ≠ 0 → w / (w / ((Complex.abs α : ℝ) : ℂ)) =
        ((Complex.abs α : ℝ) : ℂ) := by
      intro w hw
      field_simp
    rw [e _ hα2, e _ hα]
  have hB : beta_new (g * α) (g * β) = beta_new α β := by
    unfold beta_new
    rw [hd1, hd2, exp_I_mul_arg _ hα2, exp_I_mul_arg _ hα, map_mul, hgabs, one_mul,
      div_div_eq_mul_div, div_div_eq_mul_div, mul_assoc]
    rw [mul_div_mul_left _ _ hg0]
  have hθ : theta (g * α) (g * β) = theta α β := by
    unfold theta
    rw [hA]
  have hφ : phi (g * α) (g * β) = phi α β := by
    unfold phi
    rw [hB, hθ]
  have hc1 : ¬(Complex.abs (g * α) = 0 ∨ Complex.abs (g * β) = 0) := by
    rintro (h | h)
    · exact hα2 (by rwa [map_eq_zero] at h)
    · exact hβ2 (by rwa [map_eq_zero] at h)
  have hc2 : ¬(Complex.abs α = 0 ∨ Complex.abs β = 0) := by
    rintro (h | h)
    · exact hα (by rwa [map_eq_zero] at h)
    · exact hβ (by rwa [map_eq_zero] at h)
  unfold get_vector
  rw [if_neg hc1, if_neg hc2, hθ, hφ]

/-- Witness for the amended C8: the normalized pair (3/5, 4/5) under the
global phase `exp(iπ/2)`; no snapping occurs, both pairs take the
`exp(i·angle_alpha)` branch, and the two Bloch vectors agree. -/
theorem get_vector_global_phase_inv_witness :
    get_vector (Complex.exp (Complex.I * ((Real.pi / 2 : ℝ) : ℂ)) * ((3 / 5 : ℝ) : ℂ))
        (Complex.exp (Complex.I * ((Real.pi / 2 : ℝ) : ℂ)) * ((4 / 5 : ℝ) : ℂ)) =
      get_vector ((3 / 5 : ℝ) : ℂ) ((4 / 5 : ℝ) : ℂ) := by
  have hπ := Real.pi_pos
  have hexpI : Complex.exp (Complex.I * ((Real.pi / 2 : ℝ) : ℂ)) = Complex.I := by
    rw [mul_comm, Complex.exp_mul_I, ← Complex.ofReal_cos, ← Complex.ofReal_sin,
      Real.cos_pi_div_two, Real.sin_pi_div_two]
    simp
  have hargr : ∀ r : ℝ, 0 < r → ((r : ℝ) : ℂ).arg = 0 := fun r hr =>
    Complex.arg_ofReal_of_nonneg hr.le
  have hargI : ∀ r : ℝ, 0 < r →
      (Complex.exp (Complex.I * ((Real.pi / 2 : ℝ) : ℂ)) * ((r : ℝ) : ℂ)).arg =
        Real.pi / 2 := by
    intro r hr
    rw [hexpI]
    have h : Complex.I * ((r : ℝ) : ℂ) =
        ((r : ℝ) : ℂ) * (Complex.cos ((Real.pi / 2 : ℝ) : ℂ) +
          Complex.sin ((Real.pi / 2 : ℝ) : ℂ) * Complex.I) := by
      rw [← Complex.ofReal_cos, ← Complex.ofReal_sin, Real.cos_pi_div_two,
        Real.sin_pi_div_two]
      push_cast
      ring
    rw [h]
    exact Complex.arg_mul_cos_add_sin_mul_I hr (Set.mem_Ioc.mpr ⟨by linarith, by linarith⟩)
  apply get_vector_global_phase_inv
  · rw [Complex.normSq_ofReal, Complex.normSq_ofReal]
    norm_num
  · exact Complex.ofReal_ne_zero.mpr (by norm_num)
  · exact Complex.ofReal_ne_zero.mpr (by norm_num)
  · rw [hargr _ (by norm_num)]
    exact not_isclose_pi (by linarith) (by linarith)
  · rw [hargr _ (by norm_num)]
    exact not_isclose_pi (by linarith) (by linarith)
  · rw [hargI _ (by norm_num)]
    exact not_isclose_pi (by linarith) (by linarith)
  · rw [hargI _ (by norm_num)]
    exact not_isclose_pi (by linarith) (by linarith)
  · rw [hargr _ (by norm_num), hargr _ (by norm_num)]
    rintro (⟨h1, -⟩ | ⟨h1, -⟩) <;> exact lt_irrefl _ h1
  · rw [hargI _ (by norm_num), hargI _ (by norm_num)]
    rintro (⟨h1, -⟩ | ⟨-, h2⟩)
    · linarith
    · linarith

/-- Counterexample to C8 as stated: the normalized pair
`((-1+i)/2, (1+i)/2)` with both amplitudes nonzero and the global phase
`exp(iπ/2) = i`: the rotated pair yields a different vector (z-component 0
instead of -2), so `get_vector` is not invariant under this global phase. -/
theorem get_vector_global_phase_cex :
    Complex.normSq ((-1 + Complex.I) / 2) + Complex.normSq ((1 + Complex.I) / 2) = 1 ∧
    ((-1 + Complex.I) / 2 : ℂ) ≠ 0 ∧ ((1 + Complex.I) / 2 : ℂ) ≠ 0 ∧
    get_vector (Complex.exp (Complex.I * ((Real.pi / 2 : ℝ) : ℂ)) * ((-1 + Complex.I) / 2))
        (Complex.exp (Complex.I * ((Real.pi / 2 : ℝ) : ℂ)) * ((1 + Complex.I) / 2)) ≠
      get_vector ((-1 + Complex.I) / 2) ((1 + Complex.I) / 2) := by
  refine ⟨?_, ne_m1p, ne_p1p, ?_⟩
  · norm_num [Complex.normSq_div, Complex.normSq_apply]
  · have hexpI : Complex.exp (Complex.I * ((Real.pi / 2 : ℝ) : ℂ)) = Complex.I := by
      rw [mul_comm, Complex.exp_mul_I, ← Complex.ofReal_cos, ← Complex.ofReal_sin,
        Real.cos_pi_div_two, Real.sin_pi_div_two]
      simp
    have h1 : Complex.I * ((-1 + Complex.I) / 2) = (-1 - Complex.I) / 2 := by
      linear_combination ((1 : ℂ) / 2) * Complex.I_sq
    have h2 : Complex.I * ((1 + Complex.I) / 2) = (-1 + Complex.I) / 2 := by
      linear_combination ((1 : ℂ) / 2) * Complex.I_sq
    rw [hexpI, h1, h2]
    intro h
    have hz := congrArg (fun v : ℝ × ℝ × ℝ => v.2.2) h
    simp only at hz
    rw [get_vector_cex_z_rotated, get_vector_cex_z] at hz
    norm_num at hz

/-! ### Helper lemmas for the `qft` circuit -/

/-- The fourth power of the primitive eighth root of unity is -1. -/
theorem zeta8_pow_four : zeta8 ^ 4 = -1 := by
  rw [zeta8, ← Complex.exp_nat_mul]
  rw [show ((4 : ℕ) : ℂ) * (Real.pi * Complex.I / 4) = Real.pi * Complex.I by push_cast; ring]
  exact Complex.exp_pi_mul_I

/-- The eighth power of the primitive eighth root of unity is 1. -/
theorem zeta8_pow_eight : zeta8 ^ 8 = 1 := by
  rw [show (8 : ℕ) = 4 * 2 from rfl, pow_mul, zeta8_pow_four]
  norm_num

/-- Power reduction for `zeta8 ^ 5`. -/
theorem zeta8_pow_five : zeta8 ^ 5 = -zeta8 := by
  rw [show (5 : ℕ) = 4 + 1 from rfl, pow_add, zeta8_pow_four]
  ring

/-- Power reduction for `zeta8 ^ 6`. -/
theorem zeta8_pow_six : zeta8 ^ 6 = -zeta8 ^ 2 := by
  rw [show (6 : ℕ) = 4 + 2 from rfl, pow_add, zeta8_pow_four]
  ring

/-- Power reduction for `zeta8 ^ 7`. -/
theorem zeta8_pow_seven : zeta8 ^ 7 = -zeta8 ^ 3 := by
  rw [show (7 : ℕ) = 4 + 3 from rfl, pow_add, zeta8_pow_four]
  ring

/-- The phase of `CZ**0.5` is `zeta8 ^ 2`. -/
theorem exp_half_pi : Complex.exp ((Real.pi : ℂ) * (1 / 2) * Complex.I) = zeta8 ^ 2 := by
  rw [zeta8, ← Complex.exp_nat_mul]
  congr 1
  push_cast
  ring

/-- The phase of `CZ**0.25` is `zeta8`. -/
theorem exp_quarter_pi : Complex.exp ((Real.pi : ℂ) * (1 / 4) * Complex.I) = zeta8 := by
  rw [zeta8]
  congr 1
  ring

/-- The discrete-Fourier-transform phase `exp(2πi·m/8)` is `zeta8 ^ (m % 8)`. -/
theorem exp_dft (m : ℕ) :
    Complex.exp (2 * Real.pi * Complex.I * ((m : ℕ) : ℂ) / 8) = zeta8 ^ (m % 8) := by
  have h1 : Complex.exp (2 * Real.pi * Complex.I * ((m : ℕ) : ℂ) / 8) = zeta8 ^ m := by
    rw [zeta8, ← Complex.exp_nat_mul]
    congr 1
    ring
  rw [h1]
  conv_lhs => rw [← Nat.div_add_mod m 8]
  rw [pow_add, pow_mul, zeta8_pow_eight, one_pow, one_mul]

/-- `√8 = √2 · √2 · √2` in `ℂ`. -/
theorem sqrt8_eq : ((Real.sqrt 8 : ℝ) : ℂ) =
    ((Real.sqrt 2 : ℝ) : ℂ) * ((Real.sqrt 2 : ℝ) : ℂ) * ((Real.sqrt 2 : ℝ) : ℂ) := by
  have h : Real.sqrt 8 = Real.sqrt 2 * Real.sqrt 2 * Real.sqrt 2 := by
    have h2 : Real.sqrt 2 * Real.sqrt 2 = 2 := Real.mul_self_sqrt (by norm_num)
    have h4 : Real.sqrt 4 = 2 := by
      rw [show (4 : ℝ) = 2 ^ 2 by norm_num, Real.sqrt_sq (by norm_num : (0 : ℝ) ≤ 2)]
    rw [show (8 : ℝ) = 4 * 2 by norm_num, Real.sqrt_mul (by norm_num), h4, h2]
  exact_mod_cast congrArg Complex.ofReal h

/-- `√2 · √2 = 2` in `ℂ`. -/
theorem csqrt2_sq : ((Real.sqrt 2 : ℝ) : ℂ) * ((Real.sqrt 2 : ℝ) : ℂ) = 2 := by
  rw [← Complex.ofReal_mul, Real.mul_self_sqrt (by norm_num)]
  norm_num

/-- `(√2)⁻¹ · (√2)⁻¹ = 1/2` in `ℂ`. -/
theorem csqrt2_inv :
    (((Real.sqrt 2 : ℝ) : ℂ))⁻¹ * (((Real.sqrt 2 : ℝ) : ℂ))⁻¹ = 1 / 2 := by
  rw [← mul_inv, csqrt2_sq]
  norm_num

/-- The real part of the primitive eighth root of unity. -/
theorem zeta8_re : zeta8.re = Real.sqrt 2 / 2 := by
  have h : (Real.pi * Complex.I / 4 : ℂ) = ((Real.pi / 4 : ℝ) : ℂ) * Complex.I := by
    push_cast
    ring
  rw [zeta8, h, Complex.exp_ofReal_mul_I_re, Real.cos_pi_div_four]

set_option maxHeartbeats 2000000 in
/-- C6 (amended): the three-qubit `qft` circuit implements the quantum
Fourier transform composed with a bit reversal of the output index: for
every input state with amplitudes `x_0..x_7` and every `k < 8`, the output
amplitude at the bit-reversed index `rev3 k` is
`(1/√8) · Σ_j x_j · exp(2πi·j·k/8)` (equivalently, the amplitude at index
`k` is the DFT coefficient at `rev3 k`). -/
theorem qft_bit_reversed_dft (x : ℕ → ℂ) (k : ℕ) (hk : k < 8) :
    qft x (rev3 k) =
      (1 / ((Real.sqrt 8 : ℝ) : ℂ)) *
        ∑ j ∈ Finset.range 8, x j *
          Complex.exp (2 * Real.pi * Complex.I * (((j * k : ℕ)) : ℂ) / 8) := by
  interval_cases k <;>
  · simp only [Finset.sum_range_succ, Finset.sum_range_zero, exp_dft]
    norm_num [rev3]
    simp only [qft, applyH, applyCZpow]
    norm_num [exp_half_pi, exp_quarter_pi, sqrt8_eq, zeta8_pow_four, zeta8_pow_five,
      zeta8_pow_six, zeta8_pow_seven]
    try field_simp
    try ring_nf
    try simp only [zeta8_pow_four, zeta8_pow_five, zeta8_pow_six, zeta8_pow_seven]
    try ring

/-- Witness for the amended C6 at the uniform input state and `k = 0`. -/
theorem qft_bit_reversed_dft_witness :
    qft (fun _ => (1 : ℂ)) (rev3 0) =
      (1 / ((Real.sqrt 8 : ℝ) : ℂ)) *
        ∑ j ∈ Finset.range 8, (fun _ => (1 : ℂ)) j *
          Complex.exp (2 * Real.pi * Complex.I * (((j * 0 : ℕ)) : ℂ) / 8) :=
  qft_bit_reversed_dft (fun _ => (1 : ℂ)) 0 (by norm_num)

/-- The `qft` circuit maps the basis state `|001⟩` (index 1) to an output
whose amplitude at index 1 is `-1/√8`. -/
theorem qft_e1_val : qft (fun j => if j = 1 then (1 : ℂ) else 0) 1 =
    ((-(1 / (Real.sqrt 2 * Real.sqrt 2 * Real.sqrt 2)) : ℝ) : ℂ) := by
  simp only [qft, applyH, applyCZpow]
  norm_num
  linear_combination (-((((Real.sqrt 2 : ℝ) : ℂ))⁻¹)) * csqrt2_inv

/-- The plain DFT of the basis state `|001⟩` has the value `(1/√8)·zeta8`
at index 1. -/
theorem dft_e1_val : (1 / ((Real.sqrt 8 : ℝ) : ℂ)) *
      ∑ j ∈ Finset.range 8, (if j = 1 then (1 : ℂ) else 0) *
        Complex.exp (2 * Real.pi * Complex.I * (((j * 1 : ℕ)) : ℂ) / 8) =
    ((1 / (Real.sqrt 2 * Real.sqrt 2 * Real.sqrt 2) : ℝ) : ℂ) * zeta8 := by
  simp only [Finset.sum_range_succ, Finset.sum_range_zero, exp_dft]
  norm_num [sqrt8_eq]
  left
  rw [← mul_inv, csqrt2_sq]
  norm_num

/-- Counterexample to C6 as stated: on the input basis state with `x_1 = 1`
(and all other amplitudes 0), the amplitude the circuit produces at index 1
is `-1/√8`, not the claimed `(1/√8)·e^(2πi·1·1/8)`: the circuit computes the
quantum Fourier transform only up to a bit reversal of the output index. -/
theorem qft_dft_cex :
    qft (fun j => if j = 1 then (1 : ℂ) else 0) 1 ≠
      (1 / ((Real.sqrt 8 : ℝ) : ℂ)) *
        ∑ j ∈ Finset.range 8, (if j = 1 then (1 : ℂ) else 0) *
          Complex.exp (2 * Real.pi * Complex.I * (((j * 1 : ℕ)) : ℂ) / 8) := by
  rw [qft_e1_val, dft_e1_val]
  intro h
  have hre := congrArg Complex.re h
  rw [Complex.ofReal_re, Complex.re_ofReal_mul, zeta8_re] at hre
  have h2 : (0 : ℝ) < Real.sqrt 2 := Real.sqrt_pos.mpr (by norm_num)
  have haux : (0 : ℝ) < 1 / (Real.sqrt 2 * Real.sqrt 2 * Real.sqrt 2) := by positivity
  nlinarith [mul_pos haux (by positivity : (0 : ℝ) < Real.sqrt 2 / 2)]
